import Mathlib

/-!
Verification of the editing engine of the `sexditor` terminal editor.

The source is shallowly embedded as follows.

* A Rust `String` buffer is a `List Char`.  Rust byte offsets are kept as
  byte offsets: `utf8Len` is the UTF-8 byte length of a list of characters,
  and the insertion / removal primitives of `String` (which panic when the
  index is out of bounds or not on a character boundary) are embedded as
  `Option`-valued functions, `none` standing for the panic.
* `str::lines` is embedded as `rustLines`: segments split on a line feed,
  with one carriage return stripped from the end of every terminated
  segment, a trailing empty segment dropped, and the final unterminated
  segment kept verbatim.
* The cursor coordinates are Rust `u16` values, kept as `Nat` with an
  explicit `% 65536` wherever the source performs `u16` arithmetic that can
  wrap (release-profile wrapping semantics); `usize` arithmetic is likewise
  reduced modulo `2 ^ 64` where the source can wrap.
* A compiled regular expression is embedded as its `find` function: a
  function from the searched text to the first match, given as a
  `(start, end)` pair of character offsets (matches of a Rust regex always
  lie on character boundaries, so character offsets and byte offsets of
  matches determine each other; the byte offset of character offset `k` in
  `s` is `utf8Len (s.take k)`).  A failed or absent match is `none`.
-/

/-- UTF-8 byte length of a buffer, matching Rust `str::len`. -/
def utf8Len (l : List Char) : Nat := (l.map Char.utf8Size).sum

/-- Strips a single trailing carriage return, as `str::lines` does on every
line-feed-terminated segment. -/
def stripCr (l : List Char) : List Char :=
  if l.getLast? = some '\r' then l.dropLast else l

/-- Splits a buffer at every line feed; a buffer with `n` line feeds yields
`n + 1` segments (the last one is the unterminated tail, possibly empty). -/
def splitNl : List Char → List (List Char)
  | [] => [[]]
  | c :: t =>
    if c = '\n' then [] :: splitNl t
    else
      match splitNl t with
      | [] => [[c]]
      | l :: ls => (c :: l) :: ls

/-- Post-processing of `splitNl` performed by `str::lines`: every segment
except the last was terminated by a line feed and gets `stripCr`; the last
segment is dropped when empty and kept verbatim otherwise. -/
def rustLinesAux : List (List Char) → List (List Char)
  | [] => []
  | [l] => if l = [] then [] else [l]
  | l :: ls => stripCr l :: rustLinesAux ls

/-- Embedding of Rust `str::lines` applied to the buffer. -/
def rustLines (t : List Char) : List (List Char) := rustLinesAux (splitNl t)

/-- Cursor position: `(x, y)` are zero-based column and line, `u16` in the
source (`src/editor/mod.rs`), kept as `Nat`. -/
structure Position where
  x : Nat
  y : Nat
deriving DecidableEq, Repr

/-- Walk of the `for (i, line) in self.file_text.lines().enumerate()` loop of
`get_byte_offset` (`src/editor/text_actions.rs`): every line before line `y`
contributes its byte length plus one, and line `y` contributes the byte index
of its `x`-th character (`char_indices().nth(x)`), or the line's byte length
when `x` is out of range; both cases equal `utf8Len (l.take x)`.  When `y` is
past the last line the loop never breaks and the whole sum is returned. -/
def gbo : List (List Char) → Nat → Nat → Nat
  | [], _, _ => 0
  | l :: _, 0, x => utf8Len (l.take x)
  | l :: ls, y + 1, x => utf8Len l + 1 + gbo ls y x

/-- Embedding of `Editor::get_byte_offset` (`src/editor/text_actions.rs`). -/
def get_byte_offset (t : List Char) (p : Position) : Nat :=
  gbo (rustLines t) p.y p.x

/-- Insertion of a character at a byte offset, the embedding of Rust
`String::insert`; `none` embeds the panic on an offset past the end of the
buffer or not on a character boundary. -/
def insertAtByte (c : Char) : List Char → Nat → Option (List Char)
  | t, 0 => some (c :: t)
  | [], _ + 1 => none
  | a :: t, b + 1 =>
    if a.utf8Size ≤ b + 1 then (insertAtByte c t (b + 1 - a.utf8Size)).map (a :: ·)
    else none

/-- Removal of the character at a byte offset, the embedding of Rust
`String::remove`; `none` embeds the panic on an offset at or past the end of
the buffer or not on a character boundary. -/
def removeAtByte : List Char → Nat → Option (List Char)
  | [], _ => none
  | _ :: t, 0 => some t
  | a :: t, b + 1 =>
    if a.utf8Size ≤ b + 1 then (removeAtByte t (b + 1 - a.utf8Size)).map (a :: ·)
    else none

/-- Embedding of `Editor::insert_char` (`src/editor/text_actions.rs`):
`self.file_text.insert(self.get_byte_offset(pos), c)`. -/
def insert_char (t : List Char) (p : Position) (c : Char) : Option (List Char) :=
  insertAtByte c t (get_byte_offset t p)

/-- Embedding of `Editor::remove_char` (`src/editor/text_actions.rs`): when
the computed byte offset is at or past the end of the buffer the source pops
the final character (`String::pop`, a no-op on an empty buffer, embedded as
`dropLast`); otherwise it removes the character at that offset. -/
def remove_char (t : List Char) (p : Position) : Option (List Char) :=
  if utf8Len t ≤ get_byte_offset t p then some t.dropLast
  else removeAtByte t (get_byte_offset t p)

/-- Unicode `White_Space` code points, matching Rust `char::is_whitespace`. -/
def rustIsWhitespace (c : Char) : Bool :=
  let n := c.toNat
  (9 ≤ n && n ≤ 13) || n == 32 || n == 133 || n == 160 || n == 5760 ||
    (8192 ≤ n && n ≤ 8202) || n == 8232 || n == 8233 || n == 8239 ||
    n == 8287 || n == 12288

/-- Token classification kinds (`src/editor/text_colour.rs`). -/
inductive SyntaxKind where
  | Keyword
  | Identifier
  | Delimiter
  | Literal
  | Function
  | Type
  | Extra
  | Whitespace
  | Comment
  | Unknown
deriving DecidableEq, Repr

/-- A compiled classification pattern, embedded as its `find` function (see
the module comment): first match of the pattern in the text as a
`(start, end)` pair of character offsets, `none` when there is no match or
matching fails. -/
abbrev Rule := List Char → Option (Nat × Nat)

/-- The eight classification patterns of `SyntaxRegex`
(`src/editor/text_colour.rs`), each embedded as a `Rule`. -/
structure SyntaxRegex where
  keyword : Rule
  identifier : Rule
  function : Rule
  delimiters : Rule
  literal : Rule
  types : Rule
  comment : Rule
  extra : Rule

/-- The fixed order in which `SyntaxRegex::parse` tries its rules: comment,
literal, keyword, function, types, identifier, extra, delimiters. -/
def ruleList (R : SyntaxRegex) : List (Rule × SyntaxKind) :=
  [(R.comment, SyntaxKind.Comment), (R.literal, SyntaxKind.Literal),
   (R.keyword, SyntaxKind.Keyword), (R.function, SyntaxKind.Function),
   (R.types, SyntaxKind.Type), (R.identifier, SyntaxKind.Identifier),
   (R.extra, SyntaxKind.Extra), (R.delimiters, SyntaxKind.Delimiter)]

/-- One pass over the `try_rule!` sequence of `SyntaxRegex::parse`: the first
rule whose match starts at offset 0 wins; a zero-length winning span falls
back to a single `Unknown` character, as does exhausting all rules.  Returns
how many characters to consume together with the emitted kind. -/
def tryRules : List (Rule × SyntaxKind) → List Char → Nat × SyntaxKind
  | [], _ => (1, SyntaxKind.Unknown)
  | (r, k) :: rest, input =>
    match r input with
    | some (s, e) =>
      if s = 0 then (if e = 0 then (1, SyntaxKind.Unknown) else (e, k))
      else tryRules rest input
    | none => tryRules rest input

/-- Character index of the first non-whitespace character, the embedding of
`input.find(|c: char| !c.is_whitespace())` in `SyntaxRegex::parse`. -/
def firstNonWs : List Char → Option Nat
  | [] => none
  | c :: rest =>
    if rustIsWhitespace c then (firstNonWs rest).map (· + 1) else some 0

/-- Embedding of `SyntaxRegex::parse` (`src/editor/text_colour.rs`): while
the input is nonempty, a leading whitespace run is emitted as one
`Whitespace` token (the whole input when it is all whitespace); otherwise
the rules are tried in `ruleList` order via `tryRules` and the chosen span
is consumed. -/
def SyntaxRegex.parse (R : SyntaxRegex) (input : List Char) :
    List (List Char × SyntaxKind) :=
  if h0 : input = [] then []
  else
    match firstNonWs input with
    | none => [(input, SyntaxKind.Whitespace)]
    | some 0 =>
      (input.take (tryRules (ruleList R) input).1, (tryRules (ruleList R) input).2)
        :: SyntaxRegex.parse R (input.drop (tryRules (ruleList R) input).1)
    | some (j + 1) =>
      (input.take (j + 1), SyntaxKind.Whitespace)
        :: SyntaxRegex.parse R (input.drop (j + 1))
termination_by input.length
decreasing_by
  · have hpos : ∀ rs : List (Rule × SyntaxKind), 1 ≤ (tryRules rs input).1 := by
      intro rs
      induction rs with
      | nil => simp [tryRules]
      | cons a tl ih =>
        obtain ⟨r, k⟩ := a
        simp only [tryRules]
        cases hr : r input with
        | none => exact ih
        | some se =>
          obtain ⟨s, e⟩ := se
          by_cases hs : s = 0
          · by_cases he : e = 0 <;> simp [hs, he] <;> omega
          · simpa [hs] using ih
    have h1 := hpos (ruleList R)
    have hlen : 0 < input.length := List.length_pos.mpr h0
    simp only [List.length_drop]
    omega
  · have hlen : 0 < input.length := List.length_pos.mpr h0
    simp only [List.length_drop]
    omega

/-- Concatenation of the texts of a token sequence, in emitted order. -/
def joinTok (ts : List (List Char × SyntaxKind)) : List Char :=
  (ts.map Prod.fst).flatten

/-- A rule that never matches; used for the rules left unconstrained by the
rule-priority example. -/
def noMatch : Rule := fun _ => none

/-- Find function of the regex `fn|let`: at each character position the
alternatives are tried in order, so the first position carrying either
literal wins. -/
def kwFindAux : Nat → List Char → Option (Nat × Nat)
  | _, [] => none
  | i, 'f' :: 'n' :: _ => some (i, i + 2)
  | i, 'l' :: 'e' :: 't' :: _ => some (i, i + 3)
  | i, _ :: rest => kwFindAux (i + 1) rest

/-- The rule for the regex `fn|let` of the rule-priority example. -/
def kwFind : Rule := kwFindAux 0

/-- Membership in the character class `[A-Za-z_]`. -/
def isIdentChar (c : Char) : Bool :=
  (65 ≤ c.toNat && c.toNat ≤ 90) || (97 ≤ c.toNat && c.toNat ≤ 122) || c == '_'

/-- Find function of the regex `[A-Za-z_]+`: the first position whose
character is in the class starts the match, which greedily extends over the
run of class characters. -/
def identFindAux : Nat → List Char → Option (Nat × Nat)
  | _, [] => none
  | i, c :: rest =>
    if isIdentChar c then some (i, i + 1 + (rest.takeWhile isIdentChar).length)
    else identFindAux (i + 1) rest

/-- The rule for the regex `[A-Za-z_]+` of the rule-priority example. -/
def identFind : Rule := identFindAux 0

/-- Rule set of the rule-priority example: keyword is `fn|let`, identifier is
`[A-Za-z_]+`, and the remaining six rules never match. -/
def exR : SyntaxRegex :=
  { keyword := kwFind, identifier := identFind, function := noMatch,
    delimiters := noMatch, literal := noMatch, types := noMatch,
    comment := noMatch, extra := noMatch }

/-- The editor state fields the buffer and cursor operations touch
(`src/editor/mod.rs`); the remaining fields (mode, key history, command
string, paths, scroll, message queue) are irrelevant to the claims below. -/
structure Editor where
  file_text : List Char
  cursor : Position
deriving DecidableEq, Repr

/-- Cursor movement directions (`src/editor/mod.rs`). -/
inductive CursorDirection where
  | Up
  | Down
  | Left
  | Right

/-- Line of index `y`, or the empty string when out of range: the embedding
of `lines().enumerate().find(|(idx, _)| *idx == y).map(...).unwrap_or_default()`
used by `line_at_cursor` and `line_from_cursor`
(`src/editor/cursor_actions.rs`). -/
def line_at (t : List Char) (y : Nat) : List Char := (rustLines t).getD y []

/-- Embedding of `Editor::line_at_cursor`. -/
def line_at_cursor (e : Editor) : List Char := line_at e.file_text e.cursor.y

/-- Embedding of `Editor::line_from_cursor(y)` for an `i16` offset `off`:
the source computes `self.cursor.y as usize + y as usize`, where the `i16`
is sign-extended into a `usize` and the addition wraps modulo `2 ^ 64`. -/
def line_from_cursor (e : Editor) (off : Int) : List Char :=
  line_at e.file_text ((e.cursor.y + (off.emod (2 ^ 64)).toNat) % 2 ^ 64)

/-- Embedding of `Editor::cursor_at_end_of_file`:
`cursor.y as usize >= file_text.lines().count() + 1`. -/
def cursor_at_end_of_file (e : Editor) : Prop :=
  (rustLines e.file_text).length + 1 ≤ e.cursor.y

instance (e : Editor) : Decidable (cursor_at_end_of_file e) := by
  unfold cursor_at_end_of_file; infer_instance

/-- Embedding of `Editor::move_to_next_line`; the `u16` increment wraps. -/
def move_to_next_line (e : Editor) : Editor :=
  { e with cursor := ⟨0, (e.cursor.y + 1) % 65536⟩ }

/-- Embedding of `Editor::move_to_previous_line`: the new column is
`line_from_cursor(-1).chars().count() as u16` (the cast truncates), and the
`u16` decrement wraps. -/
def move_to_previous_line (e : Editor) : Editor :=
  { e with cursor :=
      ⟨(line_from_cursor e (-1)).length % 65536, (e.cursor.y + 65535) % 65536⟩ }

/-- Embedding of `Editor::move_cursor` (`src/editor/cursor_actions.rs`).
Up and Down first check the start-of-file / end-of-file guards, then adjust
`y` and clamp `x` to `chars().count() as u16` of the new current line (the
cast truncates); Left and Right follow the start-of-line / end-of-line
logic of the source. -/
def move_cursor (e : Editor) (dir : CursorDirection) : Editor :=
  match dir with
  | CursorDirection.Up =>
    if e.cursor.y = 0 then e
    else
      let y2 := e.cursor.y - 1
      let c := (line_at e.file_text y2).length % 65536
      { e with cursor := ⟨if c < e.cursor.x then c else e.cursor.x, y2⟩ }
  | CursorDirection.Down =>
    if cursor_at_end_of_file e then e
    else
      let y2 := (e.cursor.y + 1) % 65536
      let c := (line_at e.file_text y2).length % 65536
      { e with cursor := ⟨if c < e.cursor.x then c else e.cursor.x, y2⟩ }
  | CursorDirection.Left =>
    if e.cursor.y = 0 ∧ e.cursor.x = 0 then e
    else if e.cursor.x = 0 then move_to_previous_line e
    else { e with cursor := ⟨e.cursor.x - 1, e.cursor.y⟩ }
  | CursorDirection.Right =>
    if (line_at_cursor e).length ≤ e.cursor.x then move_to_next_line e
    else { e with cursor := ⟨(e.cursor.x + 1) % 65536, e.cursor.y⟩ }

/-- Embedding of `Editor::move_to_end_of_pat` (`src/editor/cursor_actions.rs`).
The slice is the current line from the byte index of the cursor's character
column to the end (`&line[start_byte..]`, i.e. `line.drop x`); the source
takes the FIRST match of the pattern anywhere in the slice and adds
`slice[..mat.end()].chars().count()` — the character length of the slice
prefix ending at the match's end, `(slice.take e).length` in character
offsets — to the cursor column with a wrapping `u16` addition. -/
def move_to_end_of_pat (ed : Editor) (pat : Rule) : Editor :=
  match pat ((line_at_cursor ed).drop ed.cursor.x) with
  | none => ed
  | some (_, e) =>
    { ed with cursor :=
        ⟨(ed.cursor.x + ((((line_at_cursor ed).drop ed.cursor.x)).take e).length) % 65536,
         ed.cursor.y⟩ }

/-- ASCII fragment of the Unicode general category classes used by the
default motion pattern `(\p{Z}+|\p{P}+|\p{N}+|\p{L}+|\p{S}+)`
(`src/editor/mod.rs`): 0 = separator (space), 1 = punctuation,
2 = number, 3 = letter, 4 = symbol.  ASCII control characters such as the
tab belong to no class.  The classes are mutually disjoint, so at a given
position at most one alternative of the pattern can match, greedily. -/
def asciiCat (c : Char) : Option Nat :=
  let n := c.toNat
  if n = 32 then some 0
  else if n ∈ [33, 34, 35, 37, 38, 39, 40, 41, 42, 44, 45, 46, 47, 58, 59,
               63, 64, 91, 92, 93, 95, 123, 125] then some 1
  else if 48 ≤ n ∧ n ≤ 57 then some 2
  else if (65 ≤ n ∧ n ≤ 90) ∨ (97 ≤ n ∧ n ≤ 122) then some 3
  else if n ∈ [36, 43, 60, 61, 62, 94, 96, 124, 126] then some 4
  else none

/-- Find function of the default motion pattern, on ASCII text: the first
classifiable character starts the match, which extends over the maximal run
of characters of the same class. -/
def wordFindAux : Nat → List Char → Option (Nat × Nat)
  | _, [] => none
  | i, c :: rest =>
    match asciiCat c with
    | some cat =>
      some (i, i + 1 + (rest.takeWhile (fun d => asciiCat d == some cat)).length)
    | none => wordFindAux (i + 1) rest

/-- The default motion pattern as a `Rule` (ASCII text). -/
def wordFind : Rule := wordFindAux 0

/-- Find function of the regex `b`: first occurrence of the character `b`. -/
def bFindAux : Nat → List Char → Option (Nat × Nat)
  | _, [] => none
  | i, c :: rest => if c = 'b' then some (i, i + 1) else bFindAux (i + 1) rest

/-- The regex `b` as a `Rule`. -/
def bFind : Rule := bFindAux 0

/-- Embedding of the Normal-mode `'O'` (insert-line-above) arm of
`Editor::handle_key_event` (`src/editor/mod.rs`), restricted to the buffer
mutation it performs: a line feed is inserted at
`Position { x: u16::try_from(line_from_cursor(-1).len()).unwrap_or_default() + 1,
y: cursor.y - 1 }`, where `.len()` is a byte length, the failed conversion
falls back to 0, and both `u16` operations wrap.  `none` embeds a panic of
`String::insert`. -/
def normal_O (e : Editor) : Option (List Char) :=
  let l := line_from_cursor e (-1)
  let lx := if utf8Len l < 65536 then utf8Len l else 0
  insert_char e.file_text ⟨(lx + 1) % 65536, (e.cursor.y + 65535) % 65536⟩ '\n'

/-- Embedding of `Editor::save_file` (`src/editor/mod.rs`), parameterised by
the outcomes of the two filesystem calls: `File::create` and `write_all` are
both followed by `.expect(..)`, so a failure of either is a panic (`none`)
that aborts the session rather than a reported, recoverable failure. -/
def save_file (createOk writeOk : Bool) : Option Unit :=
  if createOk then (if writeOk then some () else none) else none

/-! ### Byte-offset helper lemmas -/

theorem utf8Len_nil : utf8Len [] = 0 := rfl

theorem utf8Len_cons (c : Char) (l : List Char) :
    utf8Len (c :: l) = c.utf8Size + utf8Len l := by
  simp [utf8Len]

theorem utf8Len_append (a b : List Char) :
    utf8Len (a ++ b) = utf8Len a + utf8Len b := by
  simp [utf8Len]

theorem insertAtByte_shift (c : Char) (a s : List Char) (b : Nat) :
    insertAtByte c (a ++ s) (utf8Len a + b) =
      (insertAtByte c s b).map (a ++ ·) := by
  induction a generalizing b with
  | nil =>
    simp only [List.nil_append, utf8Len_nil, Nat.zero_add]
    cases insertAtByte c s b <;> rfl
  | cons x xs ih =>
    have hx := Char.utf8Size_pos x
    have hpos : 0 < utf8Len (x :: xs) + b := by
      rw [utf8Len_cons]; omega
    obtain ⟨m, hm⟩ := Nat.exists_eq_succ_of_ne_zero (Nat.pos_iff_ne_zero.mp hpos)
    rw [List.cons_append]
    rw [hm]
    show (if x.utf8Size ≤ m + 1 then
        (insertAtByte c (xs ++ s) (m + 1 - x.utf8Size)).map (x :: ·) else none) = _
    have hle : x.utf8Size ≤ m + 1 := by rw [utf8Len_cons] at hm; omega
    rw [if_pos hle]
    have harg : m + 1 - x.utf8Size = utf8Len xs + b := by
      rw [utf8Len_cons] at hm; omega
    rw [harg, ih]
    cases insertAtByte c s b <;> rfl

theorem removeAtByte_shift (a s : List Char) (b : Nat) :
    removeAtByte (a ++ s) (utf8Len a + b) =
      (removeAtByte s b).map (a ++ ·) := by
  induction a generalizing b with
  | nil =>
    simp only [List.nil_append, utf8Len_nil, Nat.zero_add]
    cases removeAtByte s b <;> rfl
  | cons x xs ih =>
    have hx := Char.utf8Size_pos x
    have hpos : 0 < utf8Len (x :: xs) + b := by
      rw [utf8Len_cons]; omega
    obtain ⟨m, hm⟩ := Nat.exists_eq_succ_of_ne_zero (Nat.pos_iff_ne_zero.mp hpos)
    rw [List.cons_append]
    rw [hm]
    show (if x.utf8Size ≤ m + 1 then
        (removeAtByte (xs ++ s) (m + 1 - x.utf8Size)).map (x :: ·) else none) = _
    have hle : x.utf8Size ≤ m + 1 := by rw [utf8Len_cons] at hm; omega
    rw [if_pos hle]
    have harg : m + 1 - x.utf8Size = utf8Len xs + b := by
      rw [utf8Len_cons] at hm; omega
    rw [harg, ih]
    cases removeAtByte s b <;> rfl

theorem insertAtByte_boundary (c : Char) (a s : List Char) :
    insertAtByte c (a ++ s) (utf8Len a) = some (a ++ c :: s) := by
  have := insertAtByte_shift c a s 0
  simpa [insertAtByte] using this

theorem removeAtByte_boundary (a : List Char) (x : Char) (s : List Char) :
    removeAtByte (a ++ x :: s) (utf8Len a) = some (a ++ s) := by
  have := removeAtByte_shift a (x :: s) 0
  simpa [removeAtByte] using this

theorem insertAtByte_ne_nil (c : Char) (t : List Char) (b : Nat)
    (t2 : List Char) (h : insertAtByte c t b = some t2) : t2 ≠ [] := by
  induction t generalizing b t2 with
  | nil =>
    cases b with
    | zero => simp [insertAtByte] at h; simp [← h]
    | succ m => simp [insertAtByte] at h
  | cons x xs ih =>
    cases b with
    | zero => simp [insertAtByte] at h; simp [← h]
    | succ m =>
      simp only [insertAtByte] at h
      by_cases hle : x.utf8Size ≤ m + 1
      · rw [if_pos hle] at h
        cases hrec : insertAtByte c xs (m + 1 - x.utf8Size) with
        | none => rw [hrec] at h; simp at h
        | some t3 => rw [hrec] at h; simp at h; simp [← h]
      · rw [if_neg hle] at h; simp at h

/-! ### Line-splitting helper lemmas -/

theorem splitNl_ne_nil (t : List Char) : splitNl t ≠ [] := by
  cases t with
  | nil => simp [splitNl]
  | cons c r =>
    by_cases h : c = '\n'
    · simp [splitNl, h]
    · simp only [splitNl, if_neg h]
      cases splitNl r <;> simp

theorem splitNl_no_nl (t : List Char) (h : '\n' ∉ t) : splitNl t = [t] := by
  induction t with
  | nil => rfl
  | cons c r ih =>
    have hc : c ≠ '\n' := fun he => h (he ▸ List.mem_cons_self c r)
    have hr : '\n' ∉ r := fun hm => h (List.mem_cons_of_mem c hm)
    simp only [splitNl, if_neg hc, ih hr]

theorem splitNl_append_nl (L s : List Char) (h : '\n' ∉ L) :
    splitNl (L ++ '\n' :: s) = L :: splitNl s := by
  induction L with
  | nil => simp [splitNl]
  | cons c r ih =>
    have hc : c ≠ '\n' := fun he => h (he ▸ List.mem_cons_self c r)
    have hr : '\n' ∉ r := fun hm => h (List.mem_cons_of_mem c hm)
    simp only [List.cons_append, splitNl, if_neg hc]
    rw [show r.append ('\n' :: s) = r ++ '\n' :: s from rfl, ih hr]

theorem rustLinesAux_cons (l : List Char) (s : List (List Char)) (hs : s ≠ []) :
    rustLinesAux (l :: s) = stripCr l :: rustLinesAux s := by
  cases s with
  | nil => exact absurd rfl hs
  | cons a tl => rfl

theorem rustLines_no_nl (t : List Char) (h0 : t ≠ []) (h : '\n' ∉ t) :
    rustLines t = [t] := by
  unfold rustLines
  rw [splitNl_no_nl t h]
  simp [rustLinesAux, h0]

theorem rustLines_append_nl (L s : List Char) (h : '\n' ∉ L) :
    rustLines (L ++ '\n' :: s) = stripCr L :: rustLines s := by
  unfold rustLines
  rw [splitNl_append_nl L s h, rustLinesAux_cons L (splitNl s) (splitNl_ne_nil s)]

theorem rustLines_nil : rustLines [] = [] := rfl

theorem dropWhile_head_nl (t : List Char) (c : Char) (r : List Char)
    (h : t.dropWhile (fun a => a != '\n') = c :: r) : c = '\n' := by
  induction t with
  | nil => simp [List.dropWhile] at h
  | cons a tl ih =>
    by_cases ha : a = '\n'
    · rw [List.dropWhile_cons] at h
      simp [ha] at h
      exact h.1.symm
    · rw [List.dropWhile_cons] at h
      simp [ha] at h
      exact ih h

theorem nl_decomp (t : List Char) (h : '\n' ∈ t) :
    ∃ L s, '\n' ∉ L ∧ t = L ++ '\n' :: s := by
  have hd : t.dropWhile (fun a => a != '\n') ≠ [] := by
    rw [Ne, List.dropWhile_eq_nil_iff]
    push_neg
    exact ⟨'\n', h, by simp⟩
  obtain ⟨c, r, hcr⟩ : ∃ c r, t.dropWhile (fun a => a != '\n') = c :: r := by
    cases hx : t.dropWhile (fun a => a != '\n') with
    | nil => exact absurd hx hd
    | cons c r => exact ⟨c, r, rfl⟩
  refine ⟨t.takeWhile (fun a => a != '\n'), r, ?_, ?_⟩
  · intro hm
    have := List.mem_takeWhile_imp hm
    simp at this
  · have hc := dropWhile_head_nl t c r hcr
    conv_lhs => rw [← List.takeWhile_append_dropWhile (fun a => a != '\n') t]
    rw [hcr, hc]

theorem rustLines_ne_nil (t : List Char) (h0 : t ≠ []) : rustLines t ≠ [] := by
  by_cases h : '\n' ∈ t
  · obtain ⟨L, s, hL, ht⟩ := nl_decomp t h
    rw [ht, rustLines_append_nl L s hL]
    simp
  · rw [rustLines_no_nl t h0 h]; simp

theorem stripCr_no_cr (l : List Char) (h : '\r' ∉ l) : stripCr l = l := by
  unfold stripCr
  cases hg : l.getLast? with
  | none => simp
  | some a =>
    obtain ⟨ys, hys⟩ := List.getLast?_eq_some_iff.mp hg
    by_cases ha : a = '\r'
    · exact absurd (by rw [hys, ha]; simp) h
    · simp [ha]

/-! ### Tokenizer helper lemmas -/

theorem tryRules_pos (rs : List (Rule × SyntaxKind)) (input : List Char) :
    1 ≤ (tryRules rs input).1 := by
  induction rs with
  | nil => simp [tryRules]
  | cons a tl ih =>
    obtain ⟨r, k⟩ := a
    simp only [tryRules]
    cases hr : r input with
    | none => exact ih
    | some se =>
      obtain ⟨s, e⟩ := se
      by_cases hs : s = 0
      · by_cases he : e = 0 <;> simp [hs, he] <;> omega
      · simpa [hs] using ih

theorem firstNonWs_some_ne_nil (input : List Char) (j : Nat)
    (h : firstNonWs input = some j) : input ≠ [] := by
  intro he
  rw [he] at h
  simp [firstNonWs] at h

theorem parse_eq_nil (R : SyntaxRegex) : R.parse [] = [] := by
  rw [SyntaxRegex.parse]
  rfl

theorem parse_eq_allws (R : SyntaxRegex) (input : List Char) (h0 : input ≠ [])
    (hw : firstNonWs input = none) :
    R.parse input = [(input, SyntaxKind.Whitespace)] := by
  rw [SyntaxRegex.parse, dif_neg h0, hw]

theorem parse_eq_ws (R : SyntaxRegex) (input : List Char) (j : Nat)
    (hw : firstNonWs input = some (j + 1)) :
    R.parse input =
      (input.take (j + 1), SyntaxKind.Whitespace) :: R.parse (input.drop (j + 1)) := by
  rw [SyntaxRegex.parse, dif_neg (firstNonWs_some_ne_nil input (j + 1) hw), hw]

theorem parse_eq_rule (R : SyntaxRegex) (input : List Char)
    (hw : firstNonWs input = some 0) :
    R.parse input =
      (input.take (tryRules (ruleList R) input).1, (tryRules (ruleList R) input).2)
        :: R.parse (input.drop (tryRules (ruleList R) input).1) := by
  rw [SyntaxRegex.parse, dif_neg (firstNonWs_some_ne_nil input 0 hw), hw]

theorem joinTok_cons (a : List Char × SyntaxKind) (ts : List (List Char × SyntaxKind)) :
    joinTok (a :: ts) = a.1 ++ joinTok ts := by
  simp [joinTok]

theorem parse_join_aux (R : SyntaxRegex) :
    ∀ (n : Nat) (input : List Char), input.length ≤ n →
      joinTok (R.parse input) = input := by
  intro n
  induction n with
  | zero =>
    intro input h
    have h0 : input = [] := List.eq_nil_of_length_eq_zero (Nat.le_zero.mp h)
    rw [h0, parse_eq_nil]
    rfl
  | succ n ih =>
    intro input h
    by_cases h0 : input = []
    · rw [h0, parse_eq_nil]; rfl
    · have hlen : 0 < input.length := List.length_pos.mpr h0
      cases hw : firstNonWs input with
      | none => rw [parse_eq_allws R input h0 hw]; simp [joinTok]
      | some j =>
        cases j with
        | zero =>
          rw [parse_eq_rule R input hw, joinTok_cons]
          have hk := tryRules_pos (ruleList R) input
          rw [ih (input.drop (tryRules (ruleList R) input).1)
              (by rw [List.length_drop]; omega)]
          exact List.take_append_drop _ input
        | succ m =>
          rw [parse_eq_ws R input m hw, joinTok_cons]
          rw [ih (input.drop (m + 1)) (by rw [List.length_drop]; omega)]
          exact List.take_append_drop _ input

/-- C1.  For every rule set and every input line, the tokenizer is total (it
is a total function of this development) and lossless: the concatenation of
the emitted token texts, in order, is exactly the input line; since the
tokens are consecutive slices of the input, this also states that every
character of the input is covered by exactly one token. -/
theorem C1_tokenizer_lossless (R : SyntaxRegex) (input : List Char) :
    joinTok (R.parse input) = input :=
  parse_join_aux R input.length input (Nat.le_refl _)

/-- Closed instance of `C1_tokenizer_lossless`. -/
theorem C1_tokenizer_lossless_witness :
    joinTok (exR.parse ['f', 'n', ' ', 'f', 'o', 'o']) = ['f', 'n', ' ', 'f', 'o', 'o'] :=
  C1_tokenizer_lossless exR ['f', 'n', ' ', 'f', 'o', 'o']

theorem tryRules_skip (pre rest : List (Rule × SyntaxKind)) (input : List Char)
    (hpre : ∀ q ∈ pre, ∀ s e, q.1 input = some (s, e) → s ≠ 0) :
    tryRules (pre ++ rest) input = tryRules rest input := by
  induction pre with
  | nil => rfl
  | cons a tl ih =>
    obtain ⟨r, k⟩ := a
    rw [List.cons_append]
    show (match r input with
      | some (s, e) =>
        if s = 0 then (if e = 0 then (1, SyntaxKind.Unknown) else (e, k))
        else tryRules (tl ++ rest) input
      | none => tryRules (tl ++ rest) input) = tryRules rest input
    have htl : ∀ q ∈ tl, ∀ s e, q.1 input = some (s, e) → s ≠ 0 := by
      intro q hq
      exact hpre q (List.mem_cons_of_mem _ hq)
    cases hr : r input with
    | none => exact ih htl
    | some se =>
      obtain ⟨s, e⟩ := se
      have hs : s ≠ 0 := hpre (r, k) (List.mem_cons_self _ _) s e hr
      show (if s = 0 then (if e = 0 then (1, SyntaxKind.Unknown) else (e, k))
        else tryRules (tl ++ rest) input) = tryRules rest input
      rw [if_neg hs]
      exact ih htl

/-- C2.  First conjunct: after the whitespace step (the remaining slice
starts with a non-whitespace character), the rules are tried in the fixed
order of `ruleList` — comment, literal, keyword, function, type, identifier,
extra, delimiter; if every earlier rule has no match anchored at offset 0 and
a rule matches with span `[0, e)` for `0 < e`, that rule wins and its whole
span is emitted with its kind.  Second conjunct: with keyword = `fn|let` and
identifier = `[A-Za-z_]+`, the line `"fn foo"` is classified as exactly
`[("fn", Keyword), (" ", Whitespace), ("foo", Identifier)]`. -/
theorem C2_rule_priority :
    (∀ (R : SyntaxRegex) (input : List Char) (c : Char)
        (pre post : List (Rule × SyntaxKind)) (r : Rule) (k : SyntaxKind) (e : Nat),
        input.head? = some c → rustIsWhitespace c = false →
        ruleList R = pre ++ (r, k) :: post →
        (∀ q ∈ pre, ∀ s e2, q.1 input = some (s, e2) → s ≠ 0) →
        r input = some (0, e) → 0 < e →
        R.parse input = (input.take e, k) :: R.parse (input.drop e)) ∧
    exR.parse ['f', 'n', ' ', 'f', 'o', 'o'] =
      [(['f', 'n'], SyntaxKind.Keyword), ([' '], SyntaxKind.Whitespace),
       (['f', 'o', 'o'], SyntaxKind.Identifier)] := by
  constructor
  · intro R input c pre post r k e hh hw hrl hpre hr he
    obtain ⟨rest, rfl⟩ : ∃ rest, input = c :: rest := by
      cases input with
      | nil => simp at hh
      | cons a tl =>
        rw [List.head?_cons] at hh
        exact ⟨tl, by rw [Option.some_inj.mp hh]⟩
    have hfw : firstNonWs (c :: rest) = some 0 := by
      simp [firstNonWs, hw]
    rw [parse_eq_rule R _ hfw]
    have ht : tryRules (ruleList R) (c :: rest) = (e, k) := by
      rw [hrl, tryRules_skip pre _ _ hpre]
      show (match r (c :: rest) with
        | some (s, e2) =>
          if s = 0 then (if e2 = 0 then (1, SyntaxKind.Unknown) else (e2, k))
          else tryRules post (c :: rest)
        | none => tryRules post (c :: rest)) = (e, k)
      rw [hr]
      show (if (0 : Nat) = 0 then (if e = 0 then (1, SyntaxKind.Unknown) else (e, k))
        else tryRules post (c :: rest)) = (e, k)
      rw [if_pos rfl, if_neg (by omega)]
    rw [ht]
  · have s1 : exR.parse ['f', 'n', ' ', 'f', 'o', 'o'] =
        (['f', 'n'], SyntaxKind.Keyword) :: exR.parse [' ', 'f', 'o', 'o'] := by
      rw [parse_eq_rule exR _ (by decide)]
      have ht : tryRules (ruleList exR) ['f', 'n', ' ', 'f', 'o', 'o'] =
          (2, SyntaxKind.Keyword) := by decide
      rw [ht]
      rfl
    have s2 : exR.parse [' ', 'f', 'o', 'o'] =
        ([' '], SyntaxKind.Whitespace) :: exR.parse ['f', 'o', 'o'] := by
      rw [parse_eq_ws exR _ 0 (by decide)]
      rfl
    have s3 : exR.parse ['f', 'o', 'o'] =
        (['f', 'o', 'o'], SyntaxKind.Identifier) :: exR.parse [] := by
      rw [parse_eq_rule exR _ (by decide)]
      have ht : tryRules (ruleList exR) ['f', 'o', 'o'] =
          (3, SyntaxKind.Identifier) := by decide
      rw [ht]
      rfl
    rw [s1, s2, s3, parse_eq_nil]

/-- Closed instance of `C2_rule_priority`: the keyword rule of `exR` wins on
`"fn foo"` with the two earlier rules (comment, literal) not matching
anchored at 0, emitting `("fn", Keyword)`. -/
theorem C2_rule_priority_witness :
    exR.parse ['f', 'n', ' ', 'f', 'o', 'o'] =
      (['f', 'n'], SyntaxKind.Keyword) :: exR.parse [' ', 'f', 'o', 'o'] := by
  have h := C2_rule_priority.1 exR ['f', 'n', ' ', 'f', 'o', 'o'] 'f'
    [(exR.comment, SyntaxKind.Comment), (exR.literal, SyntaxKind.Literal)]
    [(exR.function, SyntaxKind.Function), (exR.types, SyntaxKind.Type),
     (exR.identifier, SyntaxKind.Identifier), (exR.extra, SyntaxKind.Extra),
     (exR.delimiters, SyntaxKind.Delimiter)]
    exR.keyword SyntaxKind.Keyword 2 rfl (by decide) rfl
    (by
      intro q hq s e2 hmatch
      simp only [List.mem_cons, List.not_mem_nil, or_false] at hq
      rcases hq with h1 | h1 <;>
        · subst h1
          simp [exR, noMatch] at hmatch)
    (by decide) (by decide)
  simpa using h

/-! ### Insert / delete helper lemmas -/

theorem remove_char_at_boundary (A : List Char) (c : Char) (Z : List Char)
    (p : Position) (hb : get_byte_offset (A ++ c :: Z) p = utf8Len A) :
    remove_char (A ++ c :: Z) p = some (A ++ Z) := by
  show (if utf8Len (A ++ c :: Z) ≤ get_byte_offset (A ++ c :: Z) p then
      some (A ++ c :: Z).dropLast else removeAtByte (A ++ c :: Z) (get_byte_offset (A ++ c :: Z) p)) = _
  rw [hb]
  have hlt : ¬ utf8Len (A ++ c :: Z) ≤ utf8Len A := by
    rw [utf8Len_append, utf8Len_cons]
    have := Char.utf8Size_pos c
    omega
  rw [if_neg hlt]
  exact removeAtByte_boundary A c Z

theorem restore_head (L Rst : List Char) (x : Nat) (c : Char)
    (ht0 : L ++ Rst ≠ []) (hL : '\n' ∉ L) (hrL : '\r' ∉ L)
    (hRst : Rst = [] ∨ ∃ s, Rst = '\n' :: s) (hx : x ≤ L.length) :
    (insert_char (L ++ Rst) ⟨x, 0⟩ c).bind (fun t2 => remove_char t2 ⟨x, 0⟩) =
      some (L ++ Rst) := by
  obtain ⟨A, D, hAD, hlenA⟩ : ∃ A D, A ++ D = L ∧ A.length = x :=
    ⟨L.take x, L.drop x, List.take_append_drop x L,
     by rw [List.length_take]; exact Nat.min_eq_left hx⟩
  have htakeL : L.take x = A := by rw [← hAD, ← hlenA, List.take_left]
  have hmemA : ∀ a, a ∈ A → a ∈ L := fun a h => by
    rw [← hAD]; exact List.mem_append.mpr (Or.inl h)
  have hmemD : ∀ a, a ∈ D → a ∈ L := fun a h => by
    rw [← hAD]; exact List.mem_append.mpr (Or.inr h)
  have hnA : '\n' ∉ A := fun h => hL (hmemA _ h)
  have hrA : '\r' ∉ A := fun h => hrL (hmemA _ h)
  have hnD : '\n' ∉ D := fun h => hL (hmemD _ h)
  have hrD : '\r' ∉ D := fun h => hrL (hmemD _ h)
  have htakeA : A.take x = A := by rw [← hlenA, List.take_length]
  obtain ⟨TL, hlines⟩ : ∃ TL, rustLines (L ++ Rst) = L :: TL := by
    rcases hRst with h0 | ⟨s, hs⟩
    · subst h0
      rw [List.append_nil] at ht0 ⊢
      exact ⟨[], rustLines_no_nl L ht0 hL⟩
    · subst hs
      rw [rustLines_append_nl L s hL, stripCr_no_cr L hrL]
      exact ⟨_, rfl⟩
  have hb : get_byte_offset (L ++ Rst) ⟨x, 0⟩ = utf8Len A := by
    unfold get_byte_offset
    rw [hlines]
    simp only [gbo]
    rw [htakeL]
  have hteq : L ++ Rst = A ++ (D ++ Rst) := by rw [← List.append_assoc, hAD]
  have hins : insert_char (L ++ Rst) ⟨x, 0⟩ c = some (A ++ c :: (D ++ Rst)) := by
    unfold insert_char
    rw [hb, hteq]
    exact insertAtByte_boundary c A (D ++ Rst)
  rw [hins]
  simp only [Option.some_bind]
  have hhead2 : ∃ H TL2,
      rustLines (A ++ c :: (D ++ Rst)) = H :: TL2 ∧ H.take x = A := by
    by_cases hc : c = '\n'
    · subst hc
      rw [rustLines_append_nl A (D ++ Rst) hnA, stripCr_no_cr A hrA]
      exact ⟨A, _, rfl, htakeA⟩
    · rcases hRst with h0 | ⟨s, hs⟩
      · subst h0
        rw [List.append_nil]
        have hnl : '\n' ∉ A ++ c :: D := by
          intro hm
          rcases List.mem_append.mp hm with h | h
          · exact hnA h
          · rcases List.mem_cons.mp h with h | h
            · exact hc h.symm
            · exact hnD h
        rw [rustLines_no_nl _ (by simp) hnl]
        refine ⟨A ++ c :: D, [], rfl, ?_⟩
        rw [← hlenA]
        exact List.take_left A _
      · subst hs
        have hre : A ++ c :: (D ++ '\n' :: s) = (A ++ c :: D) ++ '\n' :: s := by simp
        have hnl : '\n' ∉ A ++ c :: D := by
          intro hm
          rcases List.mem_append.mp hm with h | h
          · exact hnA h
          · rcases List.mem_cons.mp h with h | h
            · exact hc h.symm
            · exact hnD h
        rw [hre, rustLines_append_nl (A ++ c :: D) s hnl]
        by_cases hD0 : D = []
        · subst hD0
          by_cases hcr : c = '\r'
          · subst hcr
            have hs1 : stripCr (A ++ '\r' :: []) = A := by
              unfold stripCr
              rw [show A ++ '\r' :: [] = A ++ ['\r'] from rfl, List.getLast?_concat]
              simp
            exact ⟨A, _, by rw [hs1], htakeA⟩
          · have hs1 : stripCr (A ++ c :: []) = A ++ [c] := by
              unfold stripCr
              rw [show A ++ c :: [] = A ++ [c] from rfl, List.getLast?_concat]
              simp [hcr]
            refine ⟨A ++ [c], _, by rw [hs1], ?_⟩
            rw [← hlenA]
            exact List.take_left A [c]
        · obtain ⟨D0, d, hD⟩ : ∃ D0 d, D = D0 ++ [d] := by
            rcases List.eq_nil_or_concat D with h | ⟨D0, d, h⟩
            · exact absurd h hD0
            · exact ⟨D0, d, by rw [h, List.concat_eq_append]⟩
          have hdr : d ≠ '\r' := fun h => hrD (by rw [hD, h]; simp)
          have hs1 : stripCr (A ++ c :: D) = A ++ c :: D := by
            unfold stripCr
            rw [hD, show A ++ c :: (D0 ++ [d]) = (A ++ c :: D0) ++ [d] by simp,
                List.getLast?_concat]
            simp [hdr]
          refine ⟨A ++ c :: D, _, by rw [hs1], ?_⟩
          rw [← hlenA]
          exact List.take_left A _
  obtain ⟨H, TL2, hl2, htake⟩ := hhead2
  have hb2 : get_byte_offset (A ++ c :: (D ++ Rst)) ⟨x, 0⟩ = utf8Len A := by
    unfold get_byte_offset
    rw [hl2]
    simp only [gbo]
    rw [htake]
  rw [remove_char_at_boundary A c (D ++ Rst) ⟨x, 0⟩ hb2, hteq]

theorem gbo_append_nl (L s : List Char) (hL : '\n' ∉ L) (hrL : '\r' ∉ L)
    (x y : Nat) :
    get_byte_offset (L ++ '\n' :: s) ⟨x, y + 1⟩ =
      utf8Len (L ++ ['\n']) + get_byte_offset s ⟨x, y⟩ := by
  unfold get_byte_offset
  rw [rustLines_append_nl L s hL, stripCr_no_cr L hrL]
  show utf8Len L + 1 + gbo (rustLines s) y x = _
  rw [utf8Len_append]
  have h1 : utf8Len ['\n'] = 1 := rfl
  rw [h1]

theorem remove_char_shift_nl (L s : List Char) (hL : '\n' ∉ L) (hrL : '\r' ∉ L)
    (x y : Nat) (r : List Char) (hs_ne : s ≠ [])
    (hrem : remove_char s ⟨x, y⟩ = some r) :
    remove_char (L ++ '\n' :: s) ⟨x, y + 1⟩ = some (L ++ '\n' :: r) := by
  have hb := gbo_append_nl L s hL hrL x y
  unfold remove_char
  rw [hb]
  have hlen : utf8Len (L ++ '\n' :: s) = utf8Len (L ++ ['\n']) + utf8Len s := by
    rw [show L ++ '\n' :: s = (L ++ ['\n']) ++ s by simp, utf8Len_append]
  by_cases hbr : utf8Len s ≤ get_byte_offset s ⟨x, y⟩
  · have hr_eq : r = s.dropLast := by
      unfold remove_char at hrem
      rw [if_pos hbr] at hrem
      exact (Option.some_inj.mp hrem).symm
    rw [if_pos (by rw [hlen]; omega)]
    rw [List.dropLast_append_cons]
    have hdl : ('\n' :: s).dropLast = '\n' :: s.dropLast := by
      cases s with
      | nil => exact absurd rfl hs_ne
      | cons a tl => rfl
    rw [hdl, hr_eq]
  · have hrm : removeAtByte s (get_byte_offset s ⟨x, y⟩) = some r := by
      unfold remove_char at hrem
      rw [if_neg hbr] at hrem
      exact hrem
    rw [if_neg (by rw [hlen]; omega)]
    rw [show L ++ '\n' :: s = (L ++ ['\n']) ++ s by simp]
    rw [removeAtByte_shift (L ++ ['\n']) s _, hrm]
    simp

/-- C3 counterexample.  On the buffer `"ab\ncd"` with the out-of-range
Position `(x = 10, y = 0)` and character `Z`, the source inserts at byte
offset 2 (end of line 0) but then computes byte offset 3 for the same
Position on the modified buffer `"abZ\ncd"`, so the deletion removes the
line feed instead of `Z`, producing `"abZcd"`: insert-then-delete at the
same Position does not restore the buffer. -/
theorem C3_insert_delete_counterexample :
    (insert_char ['a', 'b', '\n', 'c', 'd'] ⟨10, 0⟩ 'Z').bind
      (fun t2 => remove_char t2 ⟨10, 0⟩) ≠ some ['a', 'b', '\n', 'c', 'd'] := by
  decide

/-- C3 amended.  For every buffer containing no carriage return, every
Position `p` whose line index addresses an existing line and whose column is
at most that line's character length, and every character `c`, inserting `c`
at `p` and then deleting at `p` restores the original buffer
byte-for-byte. -/
theorem C3_insert_delete_inverse_amended (t : List Char) (p : Position)
    (c : Char) (hr : '\r' ∉ t) (hy : p.y < (rustLines t).length)
    (hx : p.x ≤ ((rustLines t).getD p.y []).length) :
    (insert_char t p c).bind (fun t2 => remove_char t2 p) = some t := by
  obtain ⟨x, y⟩ := p
  induction y generalizing t with
  | zero =>
    have ht0 : t ≠ [] := by
      intro h
      rw [h, rustLines_nil] at hy
      simp at hy
    by_cases hn : '\n' ∈ t
    · obtain ⟨L, s, hL, rfl⟩ := nl_decomp t hn
      have hrL : '\r' ∉ L := fun h => hr (List.mem_append.mpr (Or.inl h))
      have hlines : rustLines (L ++ '\n' :: s) = L :: rustLines s := by
        rw [rustLines_append_nl L s hL, stripCr_no_cr L hrL]
      have hx2 : x ≤ L.length := by
        rw [hlines] at hx
        simpa using hx
      exact restore_head L ('\n' :: s) x c (by simp) hL hrL (Or.inr ⟨s, rfl⟩) hx2
    · have hlines : rustLines t = [t] := rustLines_no_nl t ht0 hn
      have hx2 : x ≤ t.length := by
        rw [hlines] at hx
        simpa using hx
      have := restore_head t [] x c (by simpa using ht0) hn hr (Or.inl rfl) hx2
      simpa using this
  | succ y ih =>
    have hn : '\n' ∈ t := by
      by_contra hn
      by_cases ht0 : t = []
      · rw [ht0, rustLines_nil] at hy
        simp at hy
      · rw [rustLines_no_nl t ht0 hn] at hy
        simp at hy
    obtain ⟨L, t2, hL, rfl⟩ := nl_decomp t hn
    have hrL : '\r' ∉ L := fun h => hr (List.mem_append.mpr (Or.inl h))
    have hrt2 : '\r' ∉ t2 := fun h =>
      hr (List.mem_append.mpr (Or.inr (List.mem_cons_of_mem _ h)))
    have hlines : rustLines (L ++ '\n' :: t2) = L :: rustLines t2 := by
      rw [rustLines_append_nl L t2 hL, stripCr_no_cr L hrL]
    have hy2 : y < (rustLines t2).length := by
      rw [hlines] at hy
      simpa using hy
    have hx2 : x ≤ ((rustLines t2).getD y []).length := by
      rw [hlines] at hx
      simpa using hx
    have hIH := ih t2 hrt2 hy2 hx2
    have hb := gbo_append_nl L t2 hL hrL x y
    cases hins : insert_char t2 ⟨x, y⟩ c with
    | none =>
      rw [hins] at hIH
      simp at hIH
    | some t2i =>
      rw [hins] at hIH
      simp only [Option.some_bind] at hIH
      have houter : insert_char (L ++ '\n' :: t2) ⟨x, y + 1⟩ c =
          some (L ++ '\n' :: t2i) := by
        unfold insert_char
        rw [hb, show L ++ '\n' :: t2 = (L ++ ['\n']) ++ t2 by simp,
            insertAtByte_shift]
        unfold insert_char at hins
        rw [hins]
        simp
      rw [houter]
      simp only [Option.some_bind]
      exact remove_char_shift_nl L t2i hL hrL x y t2
        (insertAtByte_ne_nil c t2 _ t2i hins) hIH

/-- Closed instance of `C3_insert_delete_inverse_amended` on the buffer
`"ab"`, Position `(1, 0)` and character `Z`. -/
theorem C3_insert_delete_inverse_amended_witness :
    ('\r' ∉ ['a', 'b'] ∧ (0 : Nat) < (rustLines ['a', 'b']).length ∧
        (1 : Nat) ≤ ((rustLines ['a', 'b']).getD 0 []).length) ∧
      (insert_char ['a', 'b'] ⟨1, 0⟩ 'Z').bind (fun t2 => remove_char t2 ⟨1, 0⟩) =
        some ['a', 'b'] :=
  ⟨⟨by decide, by decide, by decide⟩,
   C3_insert_delete_inverse_amended ['a', 'b'] ⟨1, 0⟩ 'Z' (by decide) (by decide)
     (by decide)⟩

/-! ### Byte-offset boundary analysis for `remove_char` -/

theorem gbo_boundary (t : List Char) (hr : '\r' ∉ t) (p : Position) :
    (∃ k, k ≤ t.length ∧ get_byte_offset t p = utf8Len (t.take k)) ∨
      utf8Len t ≤ get_byte_offset t p := by
  obtain ⟨x, y⟩ := p
  induction y generalizing t with
  | zero =>
    by_cases ht0 : t = []
    · subst ht0
      right
      exact Nat.le_refl _
    by_cases hn : '\n' ∈ t
    · obtain ⟨L, s, hL, rfl⟩ := nl_decomp t hn
      have hrL : '\r' ∉ L := fun h => hr (List.mem_append.mpr (Or.inl h))
      have hb : get_byte_offset (L ++ '\n' :: s) ⟨x, 0⟩ = utf8Len (L.take x) := by
        unfold get_byte_offset
        rw [rustLines_append_nl L s hL, stripCr_no_cr L hrL]
        simp only [gbo]
      by_cases hxL : x ≤ L.length
      · left
        refine ⟨x, ?_, ?_⟩
        · rw [List.length_append]
          omega
        · rw [hb, List.take_append_of_le_length hxL]
      · left
        refine ⟨L.length, ?_, ?_⟩
        · rw [List.length_append]
          omega
        · rw [hb, List.take_of_length_le (by omega), List.take_left]
    · have hb : get_byte_offset t ⟨x, 0⟩ = utf8Len (t.take x) := by
        unfold get_byte_offset
        rw [rustLines_no_nl t ht0 hn]
        simp only [gbo]
      by_cases hxL : x ≤ t.length
      · exact Or.inl ⟨x, hxL, hb⟩
      · left
        refine ⟨t.length, Nat.le_refl _, ?_⟩
        rw [hb, List.take_of_length_le (by omega), List.take_length]
  | succ y ih =>
    by_cases ht0 : t = []
    · subst ht0
      right
      exact Nat.le_refl _
    by_cases hn : '\n' ∈ t
    · obtain ⟨L, s, hL, rfl⟩ := nl_decomp t hn
      have hrL : '\r' ∉ L := fun h => hr (List.mem_append.mpr (Or.inl h))
      have hrs : '\r' ∉ s := fun h =>
        hr (List.mem_append.mpr (Or.inr (List.mem_cons_of_mem _ h)))
      have hb := gbo_append_nl L s hL hrL x y
      rcases ih s hrs with ⟨k2, hk2, hbk⟩ | hge
      · left
        refine ⟨L.length + 1 + k2, ?_, ?_⟩
        · rw [List.length_append, List.length_cons]
          omega
        · rw [hb, hbk]
          rw [show L.length + 1 + k2 = L.length + (1 + k2) by omega,
              List.take_append]
          rw [show ('\n' :: s).take (1 + k2) = '\n' :: s.take k2 by
                rw [Nat.add_comm]; rfl]
          rw [show L ++ '\n' :: s.take k2 = (L ++ ['\n']) ++ s.take k2 by simp]
          simp only [utf8Len_append]
      · right
        rw [hb, show L ++ '\n' :: s = (L ++ ['\n']) ++ s by simp, utf8Len_append]
        omega
    · right
      unfold get_byte_offset
      rw [rustLines_no_nl t ht0 hn]
      show utf8Len t ≤ utf8Len t + 1 + gbo [] y x
      omega

theorem remove_char_within (t : List Char) (p : Position) (hr : '\r' ∉ t)
    (hlt : get_byte_offset t p < utf8Len t) :
    ∃ A ch B, t = A ++ ch :: B ∧ utf8Len A = get_byte_offset t p ∧
      remove_char t p = some (A ++ B) := by
  rcases gbo_boundary t hr p with ⟨k, hk, hbk⟩ | hge
  · have hklt : k < t.length := by
      rcases Nat.lt_or_ge k t.length with h | h
      · exact h
      · rw [List.take_of_length_le h] at hbk
        omega
    refine ⟨t.take k, t[k], t.drop (k + 1), ?_, ?_, ?_⟩
    · conv_lhs => rw [← List.take_append_drop k t]
      rw [← List.getElem_cons_drop t k hklt]
    · exact hbk.symm
    · have hdec : t = t.take k ++ t[k] :: t.drop (k + 1) := by
        conv_lhs => rw [← List.take_append_drop k t]
        rw [← List.getElem_cons_drop t k hklt]
      conv_lhs => rw [hdec]
      apply remove_char_at_boundary
      rw [← hdec, hbk]
  · omega

/-- C4 counterexample.  On the buffer `"\r\né"` (a CRLF line terminator
followed by a two-byte character) and Position `(x = 1, y = 1)`,
`get_byte_offset` computes 3 — strictly inside the 4-byte buffer but in the
middle of the final character, because the stripped carriage return shifts
the computed offset — and `String::remove` panics instead of removing a
character: `remove_char` is not total on every buffer. -/
theorem C4_remove_char_counterexample :
    get_byte_offset ['\r', '\n', 'é'] ⟨1, 1⟩ < utf8Len ['\r', '\n', 'é'] ∧
      ['\r', '\n', 'é'] ≠ ([] : List Char) ∧
      remove_char ['\r', '\n', 'é'] ⟨1, 1⟩ = none := by
  decide

/-- C4 amended.  For every buffer containing no carriage return and every
Position `p`: if the byte offset computed from `p` is strictly within the
buffer, exactly the character at that offset is removed; if the computed
offset is at or beyond the total length of the buffer (including when `p`'s
line index is past the last line, which drives the offset past the end),
the buffer's final character is removed instead (`dropLast`); the operation
is never a no-op on a non-empty buffer and never an error. -/
theorem C4_remove_char_amended (t : List Char) (p : Position) (hr : '\r' ∉ t) :
    (utf8Len t ≤ get_byte_offset t p → remove_char t p = some t.dropLast) ∧
      (get_byte_offset t p < utf8Len t →
        ∃ A ch B, t = A ++ ch :: B ∧ utf8Len A = get_byte_offset t p ∧
          remove_char t p = some (A ++ B)) ∧
      (t ≠ [] → ∀ res, remove_char t p = some res → res ≠ t) ∧
      remove_char t p ≠ none := by
  refine ⟨?_, fun hlt => remove_char_within t p hr hlt, ?_, ?_⟩
  · intro h
    unfold remove_char
    rw [if_pos h]
  · intro hne res hres heq
    have hlen : t.length = res.length + 1 := by
      rcases Nat.lt_or_ge (get_byte_offset t p) (utf8Len t) with hlt | hge
      · obtain ⟨A, ch, B, hdec, _, hrm⟩ := remove_char_within t p hr hlt
        rw [hrm] at hres
        have h1 : res = A ++ B := (Option.some_inj.mp hres).symm
        rw [h1, hdec, List.length_append, List.length_append, List.length_cons]
        omega
      · unfold remove_char at hres
        rw [if_pos hge] at hres
        have h1 : res = t.dropLast := (Option.some_inj.mp hres).symm
        have hpos : 0 < t.length := List.length_pos.mpr hne
        rw [h1, List.length_dropLast]
        omega
    rw [heq] at hlen
    omega
  · rcases Nat.lt_or_ge (get_byte_offset t p) (utf8Len t) with hlt | hge
    · obtain ⟨A, ch, B, _, _, hrm⟩ := remove_char_within t p hr hlt
      rw [hrm]
      simp
    · unfold remove_char
      rw [if_pos hge]
      simp

/-- Closed instance of `C4_remove_char_amended` on the buffer `"ab"`. -/
theorem C4_remove_char_amended_witness :
    '\r' ∉ ['a', 'b'] ∧ remove_char ['a', 'b'] ⟨0, 0⟩ ≠ none :=
  ⟨by decide, (C4_remove_char_amended ['a', 'b'] ⟨0, 0⟩ (by decide)).2.2.2⟩

/-- C10.  Deleting at any Position on the empty buffer is a silent no-op:
the computed offset (0) is at the end of the buffer, so the source pops the
final character, and `String::pop` on an empty string does nothing and does
not fail. -/
theorem C10_remove_on_empty (p : Position) : remove_char [] p = some [] := by
  unfold remove_char get_byte_offset
  rw [rustLines_nil]
  simp [gbo, utf8Len]

/-- Closed instance of `C10_remove_on_empty`. -/
theorem C10_remove_on_empty_witness : remove_char [] ⟨3, 7⟩ = some [] :=
  C10_remove_on_empty ⟨3, 7⟩

/-! ### Pattern motion and cursor motion -/

/-- C5 counterexample.  With the motion pattern `b` (the regex matching the
literal character `b`) on the line `"ab"` and the cursor at column 0, the
pattern's only match spans characters `[1, 2)` — there is no match anchored
at the very start of the slice, so the claimed behaviour is a no-op leaving
the column at 0 — but the source takes the first match anywhere and advances
the column to the match's end, column 2. -/
theorem C5_move_end_counterexample :
    bFind ((line_at_cursor ⟨['a', 'b'], ⟨0, 0⟩⟩).drop 0) = some (1, 2) ∧
      (move_to_end_of_pat ⟨['a', 'b'], ⟨0, 0⟩⟩ bFind).cursor.x = 2 := by
  decide

/-- C5 amended.  `move_to_end_of_pat` finds the first match of the pattern
anywhere in the slice running from the cursor's character column to the end
of the current line, and — provided the cursor's column plus the advance
stays below 65536, so that the wrapping `u16` addition cannot wrap —
advances the cursor's column by the character length of the slice prefix
ending at that match's end (when the match is anchored at the start of the
slice this is the matched span's character length); the line and row are
unchanged, and when the pattern has no match at all in the slice the
operation is a no-op.  On line `"ab cd"` with the default word pattern,
from column 0 the cursor moves to column 2. -/
theorem C5_move_end_amended :
    (∀ (ed : Editor) (pat : Rule),
        pat ((line_at_cursor ed).drop ed.cursor.x) = none →
        move_to_end_of_pat ed pat = ed) ∧
      (∀ (ed : Editor) (pat : Rule) (s e : Nat),
        pat ((line_at_cursor ed).drop ed.cursor.x) = some (s, e) →
        ed.cursor.x + (((line_at_cursor ed).drop ed.cursor.x).take e).length < 65536 →
        (move_to_end_of_pat ed pat).cursor.x =
            ed.cursor.x + (((line_at_cursor ed).drop ed.cursor.x).take e).length ∧
          (move_to_end_of_pat ed pat).cursor.y = ed.cursor.y ∧
          (move_to_end_of_pat ed pat).file_text = ed.file_text) ∧
      (move_to_end_of_pat ⟨['a', 'b', ' ', 'c', 'd'], ⟨0, 0⟩⟩ wordFind).cursor.x = 2 := by
  refine ⟨?_, ?_, by decide⟩
  · intro ed pat h
    unfold move_to_end_of_pat
    rw [h]
  · intro ed pat s e h hlt
    unfold move_to_end_of_pat
    rw [h]
    exact ⟨Nat.mod_eq_of_lt hlt, rfl, rfl⟩

/-- Closed instance of `C5_move_end_amended`: the never-matching rule leaves
the state unchanged. -/
theorem C5_move_end_amended_witness :
    noMatch ((line_at_cursor ⟨['a', 'b'], ⟨0, 0⟩⟩).drop 0) = none ∧
      move_to_end_of_pat ⟨['a', 'b'], ⟨0, 0⟩⟩ noMatch = ⟨['a', 'b'], ⟨0, 0⟩⟩ :=
  ⟨rfl, C5_move_end_amended.1 ⟨['a', 'b'], ⟨0, 0⟩⟩ noMatch rfl⟩

theorem rustLines_replicate_nl (n : Nat) :
    rustLines (List.replicate n '\n') = List.replicate n [] := by
  induction n with
  | zero => rfl
  | succ m ih =>
    rw [List.replicate_succ,
        show ('\n' : Char) :: List.replicate m '\n' =
          [] ++ '\n' :: List.replicate m '\n' from rfl,
        rustLines_append_nl [] _ (by simp), ih, List.replicate_succ]
    simp [stripCr]

theorem move_cursor_down_y (ed : Editor) :
    (move_cursor ed CursorDirection.Down).cursor.y =
      if cursor_at_end_of_file ed then ed.cursor.y else (ed.cursor.y + 1) % 65536 := by
  unfold move_cursor
  by_cases h : cursor_at_end_of_file ed
  · rw [if_pos h, if_pos h]
  · rw [if_neg h, if_neg h]

/-- C6 counterexample.  On a buffer of 65536 line feeds (65536 lines) with
the cursor at row 65535, the end-of-file guard `y >= lineCount() + 1` does
not fire (65535 < 65537), so Down executes `y += 1` — but `y` is a `u16`, so
instead of incrementing to 65536 the row wraps to 0 (release profile; a
debug build panics on the overflow): Down from a row strictly below
`lineCount() + 1` does not always increment the row. -/
theorem move_cursor_down_wrap (ed : Editor) (h1 : ed.cursor.y = 65535)
    (h2 : ed.cursor.y < (rustLines ed.file_text).length + 1) :
    (move_cursor ed CursorDirection.Down).cursor.y = 0 := by
  rw [move_cursor_down_y,
      if_neg (show ¬ cursor_at_end_of_file ed by
        unfold cursor_at_end_of_file
        omega),
      h1]

theorem C6_down_overflow_counterexample :
    65535 < (rustLines (List.replicate 65536 '\n')).length + 1 ∧
      (move_cursor ⟨List.replicate 65536 '\n', ⟨0, 65535⟩⟩
          CursorDirection.Down).cursor.y = 0 := by
  have hlen : (rustLines (List.replicate 65536 '\n')).length = 65536 := by
    rw [rustLines_replicate_nl 65536]
    exact List.length_replicate 65536 []
  constructor
  · rw [hlen]
    omega
  · apply move_cursor_down_wrap
    · rfl
    · rw [show (⟨List.replicate 65536 '\n', ⟨0, 65535⟩⟩ : Editor).file_text =
            List.replicate 65536 '\n' from rfl,
          show (⟨List.replicate 65536 '\n', ⟨0, 65535⟩⟩ : Editor).cursor.y =
            65535 from rfl,
          hlen]
      omega

/-- C6 amended.  Moving Up when the cursor is on line 0 leaves the cursor
(both `x` and `y`) unchanged; moving Down when `cursor.y >= lineCount() + 1`
leaves the cursor unchanged; and Down from any `y < lineCount() + 1` with
`y < 65535` (so that the `u16` increment cannot wrap) increments `y` — in
particular one row beyond the last content line is reachable. -/
theorem C6_vertical_clamp_amended :
    (∀ ed : Editor, ed.cursor.y = 0 → move_cursor ed CursorDirection.Up = ed) ∧
      (∀ ed : Editor, (rustLines ed.file_text).length + 1 ≤ ed.cursor.y →
        move_cursor ed CursorDirection.Down = ed) ∧
      (∀ ed : Editor, ed.cursor.y < (rustLines ed.file_text).length + 1 →
        ed.cursor.y < 65535 →
        (move_cursor ed CursorDirection.Down).cursor.y = ed.cursor.y + 1) := by
  refine ⟨?_, ?_, ?_⟩
  · intro ed h
    unfold move_cursor
    rw [if_pos h]
  · intro ed h
    unfold move_cursor
    rw [if_pos (show cursor_at_end_of_file ed from h)]
  · intro ed h1 h2
    unfold move_cursor
    rw [if_neg (show ¬ cursor_at_end_of_file ed by
      unfold cursor_at_end_of_file
      omega)]
    show (ed.cursor.y + 1) % 65536 = ed.cursor.y + 1
    exact Nat.mod_eq_of_lt (by omega)

/-- Closed instance of `C6_vertical_clamp_amended` on the buffer `"ab"`. -/
theorem C6_vertical_clamp_amended_witness :
    move_cursor ⟨['a', 'b'], ⟨0, 0⟩⟩ CursorDirection.Up = ⟨['a', 'b'], ⟨0, 0⟩⟩ ∧
      (move_cursor ⟨['a', 'b'], ⟨0, 0⟩⟩ CursorDirection.Down).cursor.y = 1 :=
  ⟨C6_vertical_clamp_amended.1 ⟨['a', 'b'], ⟨0, 0⟩⟩ rfl,
   C6_vertical_clamp_amended.2.2 ⟨['a', 'b'], ⟨0, 0⟩⟩ (by decide) (by decide)⟩

/-- C7 counterexample.  On the buffer `"ab"` with the cursor at `(x = 5,
y = 0)`, invoking `move_cursor` with Up is a vertical move whose
start-of-file guard fires before any clamping: the column stays 5, but the
claim demands `min(previousX, length(newLine)) = min 5 2 = 2`. -/
theorem C7_column_clamp_counterexample :
    (move_cursor ⟨['a', 'b'], ⟨5, 0⟩⟩ CursorDirection.Up).cursor.x = 5 ∧
      (line_at_cursor (move_cursor ⟨['a', 'b'], ⟨5, 0⟩⟩ CursorDirection.Up)).length = 2 ∧
      (5 : Nat) ≠ min 5 2 := by
  decide

/-- C7 amended.  After a vertical move whose boundary guard does not fire
(Up with `y > 0`; Down with `y < lineCount() + 1`), and provided the
destination line has fewer than 65536 characters (so that the
`chars().count() as u16` cast does not truncate), the cursor's column is
exactly `min(previousX, character length of the new current line)`. -/
theorem C7_column_clamp_amended :
    (∀ ed : Editor, 0 < ed.cursor.y →
        (line_at ed.file_text (ed.cursor.y - 1)).length < 65536 →
        (move_cursor ed CursorDirection.Up).cursor.x =
          min ed.cursor.x (line_at ed.file_text (ed.cursor.y - 1)).length) ∧
      (∀ ed : Editor, ed.cursor.y < (rustLines ed.file_text).length + 1 →
        (line_at ed.file_text ((ed.cursor.y + 1) % 65536)).length < 65536 →
        (move_cursor ed CursorDirection.Down).cursor.x =
          min ed.cursor.x (line_at ed.file_text ((ed.cursor.y + 1) % 65536)).length) := by
  constructor
  · intro ed hy hlen
    unfold move_cursor
    rw [if_neg (by omega : ¬ ed.cursor.y = 0)]
    show (if (line_at ed.file_text (ed.cursor.y - 1)).length % 65536 < ed.cursor.x
        then (line_at ed.file_text (ed.cursor.y - 1)).length % 65536
        else ed.cursor.x) = _
    rw [Nat.mod_eq_of_lt hlen]
    split_ifs with h <;> omega
  · intro ed hy hlen
    unfold move_cursor
    rw [if_neg (show ¬ cursor_at_end_of_file ed by
      unfold cursor_at_end_of_file
      omega)]
    show (if (line_at ed.file_text ((ed.cursor.y + 1) % 65536)).length % 65536 <
          ed.cursor.x
        then (line_at ed.file_text ((ed.cursor.y + 1) % 65536)).length % 65536
        else ed.cursor.x) = _
    rw [Nat.mod_eq_of_lt hlen]
    split_ifs with h <;> omega

/-- Closed instance of `C7_column_clamp_amended` on the buffer `"ab\ncd"`:
moving Up from `(x = 5, y = 1)` clamps the column to 2. -/
theorem C7_column_clamp_amended_witness :
    (0 : Nat) < 1 ∧
      (move_cursor ⟨['a', 'b', '\n', 'c', 'd'], ⟨5, 1⟩⟩ CursorDirection.Up).cursor.x =
        min 5 (line_at ['a', 'b', '\n', 'c', 'd'] 0).length :=
  ⟨Nat.zero_lt_one,
   C7_column_clamp_amended.1 ⟨['a', 'b', '\n', 'c', 'd'], ⟨5, 1⟩⟩ (by decide) (by decide)⟩

/-- C8.  The insert-line-above command (`'O'`) with the cursor on line 0
does not complete without failure: the source computes `self.cursor.y - 1`,
which underflows the `u16` (a debug build panics right there; with wrapping
it yields row 65535), and then inserts at a byte offset one past the end of
the unterminated buffer `"ab"`, on which `String::insert` panics.  The
embedded handler returns `none` (panic) on this reachable state, refuting
the claim that an out-of-range Position is never an error. -/
theorem C8_insert_above_panics : normal_O ⟨['a', 'b'], ⟨0, 0⟩⟩ = none := by
  decide

/-- C9.  When saving the buffer fails — `File::create` fails (for example
the directory does not exist) or `write_all` fails — `save_file` panics via
`.expect(..)` and the process aborts: the failure is not surfaced as a
recoverable, reported failure, and the editing session does not continue. -/
theorem C9_save_failure_aborts :
    save_file false true = none ∧ save_file true false = none :=
  ⟨rfl, rfl⟩
